import Mathlib

/-!
Verification of the splice-and-classify core of scripts/update_news.py.

Strings of the Python script are modelled as lists of characters
(Python str is a sequence of Unicode code points, so List Char is a
faithful model). Each definition below is a direct translation of the
corresponding Python function; line numbers refer to
src/scripts/update_news.py.
-/

/-- Convert a Lean string literal to the character-list representation. -/
def str (s : String) : List Char := s.data

/-- Boolean prefix test on character lists (Python startswith / regex literal
match at a position). -/
def isPre : List Char → List Char → Bool
  | [], _ => true
  | _ :: _, [] => false
  | a :: as, b :: bs => a = b && isPre as bs

/-- Index of the first occurrence of a pattern in a list, scanning left to
right (Python str.find / the leftmost-match rule of the re module). -/
def subFind (pat : List Char) : List Char → Option Nat
  | [] => if isPre pat [] then some 0 else none
  | c :: rest =>
    if isPre pat (c :: rest) then some 0
    else (subFind pat rest).map (· + 1)

/-- Boolean substring test (Python `pat in s`). -/
def containsSub (pat s : List Char) : Bool := (subFind pat s).isSome

/-- Index of the first occurrence of a single character. -/
def findGt : List Char → Option Nat
  | [] => none
  | c :: rest => if c = '>' then some 0 else (findGt rest).map (· + 1)

/-- Translation of `re.sub(r'<[^>]+>', '', text)` (lines 96, 192, 356 of
update_news.py): repeatedly delete the leftmost match of a literal `<`,
one or more non-`>` characters, and a `>`. A match starting at a given `<`
exists exactly when the first `>` strictly after it is not immediately
adjacent; the regex engine otherwise advances one character. -/
def stripTagsF : Nat → List Char → List Char
  | _, [] => []
  | 0, s => s
  | fuel + 1, c :: rest =>
    if c = '<' then
      match findGt rest with
      | some (k + 1) => stripTagsF fuel (rest.drop (k + 2))
      | _ => c :: stripTagsF fuel rest
    else c :: stripTagsF fuel rest

/-- The tag stripper itself: the fuel d is an upper bound on the number of
scanning steps, and the text length always suffices (every step consumes
at least one character), so the zero-fuel equation is never reached from
here. -/
def stripTags (s : List Char) : List Char := stripTagsF s.length s

/-- Whether the text still contains a full match of `<[^>]+>`: some `<`
whose first following `>` is at distance at least two. -/
def hasTag : List Char → Bool
  | [] => false
  | c :: rest =>
    ((c = '<' : Bool) && (match findGt rest with
      | some (_ + 1) => true
      | _ => false)) || hasTag rest

/-- The 26 uppercase/lowercase ASCII letter pairs, used to model Python
str.lower and str.capitalize. The script only ever lowercases feed text
whose cased characters are ASCII, so restricting the case map to ASCII is
faithful for every input the claims quantify over. -/
def casePairs : List (Char × Char) :=
  [('A', 'a'), ('B', 'b'), ('C', 'c'), ('D', 'd'), ('E', 'e'), ('F', 'f'),
   ('G', 'g'), ('H', 'h'), ('I', 'i'), ('J', 'j'), ('K', 'k'), ('L', 'l'),
   ('M', 'm'), ('N', 'n'), ('O', 'o'), ('P', 'p'), ('Q', 'q'), ('R', 'r'),
   ('S', 's'), ('T', 't'), ('U', 'u'), ('V', 'v'), ('W', 'w'), ('X', 'x'),
   ('Y', 'y'), ('Z', 'z')]

/-- Association-list lookup on characters. -/
def lookupChar : List (Char × Char) → Char → Option Char
  | [], _ => none
  | p :: ps, c => if p.1 = c then some p.2 else lookupChar ps c

/-- Lower-case one character (identity outside A-Z). -/
def asciiLower (c : Char) : Char :=
  match lookupChar casePairs c with
  | some d => d
  | none => c

/-- Upper-case one character (identity outside a-z). -/
def asciiUpper (c : Char) : Char :=
  match lookupChar (casePairs.map (fun p => (p.2, p.1))) c with
  | some d => d
  | none => c

/-- Python str.lower. -/
def pyLower (s : List Char) : List Char := s.map asciiLower

/-- Python str.capitalize: title-case the first character, lower-case the
rest (lines 82, 109). -/
def pyCapitalize : List Char → List Char
  | [] => []
  | c :: rest => asciiUpper c :: rest.map asciiLower

/-- Number of CJK characters, the comprehension
`len([c for c in s if '一' <= c <= '鿿'])` (lines 70, 85, 99). -/
def countChinese (s : List Char) : Nat :=
  (s.filter (fun c => decide ('一' ≤ c ∧ c ≤ '鿿'))).length

/-- TRANSLATION_MAP (lines 14-62), in dictionary insertion order. -/
def TRANSLATION_MAP : List (List Char × List Char) :=
  [(str "openai", str "OpenAI"),
   (str "anthropic", str "Anthropic"),
   (str "claude", str "Claude"),
   (str "gpt", str "GPT"),
   (str "gemini", str "Gemini"),
   (str "google", str "谷歌"),
   (str "meta", str "Meta"),
   (str "nvidia", str "英伟达"),
   (str "microsoft", str "微软"),
   (str "amazon", str "亚马逊"),
   (str "artificial intelligence", str "人工智能"),
   (str "machine learning", str "机器学习"),
   (str "large language model", str "大语言模型"),
   (str "llm", str "大模型"),
   (str "agent", str "智能体"),
   (str "ai agent", str "AI智能体"),
   (str "coding", str "编程"),
   (str "app", str "应用"),
   (str "model", str "模型"),
   (str "training", str "训练"),
   (str "inference", str "推理"),
   (str "chip", str "芯片"),
   (str "gpu", str "GPU"),
   (str "robotics", str "机器人"),
   (str "funding", str "融资"),
   (str "investment", str "投资"),
   (str "partnership", str "合作"),
   (str "announcing", str "发布"),
   (str "introducing", str "推出"),
   (str "new", str "全新"),
   (str "update", str "更新"),
   (str "release", str "发布"),
   (str "launch", str "上线"),
   (str "available", str "可用"),
   (str "enterprise", str "企业级"),
   (str "research", str "研究"),
   (str "paper", str "论文"),
   (str "benchmark", str "基准测试"),
   (str "performance", str "性能"),
   (str "multimodal", str "多模态"),
   (str "reasoning", str "推理能力"),
   (str "alignment", str "对齐"),
   (str "safety", str "安全"),
   (str "open source", str "开源")]

/-- Stable insertion of a pair after all pairs whose key is at least as
long. -/
def insDesc (x : List Char × List Char) :
    List (List Char × List Char) → List (List Char × List Char)
  | [] => [x]
  | y :: ys => if x.1.length ≤ y.1.length then y :: insDesc x ys else x :: y :: ys

/-- Stable sort by key length, descending: the semantics of
`sorted(TRANSLATION_MAP.items(), key=lambda x: len(x[0]), reverse=True)`
(lines 78, 105). Python sorted is stable, so pairs with equal key length
keep dictionary order. -/
def stableSortDesc (l : List (List Char × List Char)) :
    List (List Char × List Char) :=
  l.foldl (fun acc x => insDesc x acc) []

/-- The substitution table in the order the script applies it. -/
def sortedTranslationPairs : List (List Char × List Char) :=
  stableSortDesc TRANSLATION_MAP

/-- Adjacent check that a pair list is sorted by key length, descending. -/
def isSortedLenDesc : List (List Char × List Char) → Bool
  | [] => true
  | [_] => true
  | x :: y :: rest => decide (y.1.length ≤ x.1.length) && isSortedLenDesc (y :: rest)

/-- Python str.replace(pat, repl): replace every non-overlapping occurrence,
scanning left to right. The script never calls it with an empty pattern
(all table keys are nonempty), so that branch returns the text unchanged. -/
def listReplaceF (pat repl : List Char) : Nat → List Char → List Char
  | _, [] => []
  | 0, s => s
  | fuel + 1, c :: rest =>
    if pat = [] then c :: rest
    else if isPre pat (c :: rest) then
      repl ++ listReplaceF pat repl fuel ((c :: rest).drop pat.length)
    else c :: listReplaceF pat repl fuel rest

/-- Python str.replace as called by the script: the text length bounds the
number of scanning steps (every step consumes at least one character since
the pattern is nonempty), so the fuel never runs out. -/
def listReplace (pat repl s : List Char) : List Char :=
  listReplaceF pat repl s.length s

/-- The keyword-substitution loop (lines 78-79 and 105-106): fold
str.replace over the length-sorted table. -/
def applySubst (t : List Char) : List Char :=
  sortedTranslationPairs.foldl (fun acc p => listReplace p.1 p.2 acc) t

/-- translate_title (lines 64-88). The float comparison
`chinese_chars > len(title) * 0.3` is modelled by the exact comparison
`10 * chinese > 3 * len`; for every string length below 2^50 the rounding
error of the double product is smaller than the distance from `len * 0.3`
to the nearest other integer, so the two comparisons agree. -/
def translate_title (title : List Char) : List Char :=
  if title = [] then str "无标题"
  else if 10 * countChinese title > 3 * title.length then title
  else
    let t := pyCapitalize (applySubst (pyLower title))
    if countChinese t < 3 then str "[海外] " ++ title else t

/-- translate_summary (lines 90-113). The float comparison
`chinese_chars > len(clean) * 0.2` is modelled by `5 * chinese > len`,
exact for the same reason as in translate_title. -/
def translate_summary (text source : List Char) : List Char :=
  if text = [] then str "来自" ++ source ++ str "的最新动态..."
  else
    let clean := stripTags text
    if 5 * countChinese clean > clean.length then
      if clean.length > 120 then clean.take 120 ++ str "..." else clean
    else
      let r := pyCapitalize (applySubst (pyLower clean))
      if r.length > 150 then r.take 150 ++ str "..." else r

/-- The summary normalization performed by fetch_rss (lines 192 and 198):
strip tags with the regex, then run translate_summary on the result. -/
def summaryNormalize (raw source : List Char) : List Char :=
  translate_summary (stripTags raw) source

/-- A fetched article record as built by fetch_rss / fetch_hf_papers /
fetch_html_list (lines 194-201, 220-227, 249-256). The content and
readTime fields are omitted: both are computed from the fields below
(content from summary, link and source; readTime from the summary length),
so they cannot distinguish two records these fields make equal, and no
claim mentions them. -/
structure Entry where
  title : List Char
  link : List Char
  date : List Char
  summary : List Char
  source : List Char
deriving DecidableEq, Repr

/-- The keyword list of the investment branch (line 294). -/
def INVESTMENT_KEYWORDS : List (List Char) :=
  [str "融资", str "投资", str "funding", str "investment", str "$",
   str "million", str "估值", str "billion"]

/-- The keyword list of the product branch (line 296). -/
def PRODUCT_KEYWORDS : List (List Char) :=
  [str "发布", str "推出", str "上线", str "launch", str "release",
   str "product", str "update", str "available"]

/-- The keys of CATEGORY_META (lines 150-181), in dictionary order. -/
def CATEGORY_KEYS : List (List Char) :=
  [str "bigModel", str "hardware", str "global", str "investment",
   str "industry", str "product"]

/-- The classification of lines 290-298: start from the category the
source was configured under, move to `investment` when the lower-cased
title contains an investment keyword, else to `product` when it contains a
launch keyword, unless the source category is already `product` or
`bigModel`. -/
def classify (catKey title : List Char) : List Char :=
  let tl := pyLower title
  if INVESTMENT_KEYWORDS.any (fun k => containsSub k tl) then str "investment"
  else if PRODUCT_KEYWORDS.any (fun k => containsSub k tl) then
    if catKey = str "product" ∨ catKey = str "bigModel" then catKey
    else str "product"
  else catKey

/-- The per-category candidate list built by the loop of lines 275-302: an
input element is a pair of the category its source is configured under and
the fetched entry; an entry lands in the candidate list of the category
classify assigns it (the guard `final_cat in category_articles` of line
300 is the membership test of the resulting key in CATEGORY_KEYS, which
this filtering reproduces: an entry whose classified key is not a
CATEGORY_KEYS element is in no candidate list). -/
def categoryCandidates (input : List (List Char × Entry)) (cat : List Char) :
    List Entry :=
  (input.filter (fun p => decide (classify p.1 p.2.title = cat))).map (·.2)

/-- all_articles (line 302): every processed entry, in processing order. -/
def allArticles (input : List (List Char × Entry)) : List Entry :=
  input.map (·.2)

/-- The per-bucket deduplication of lines 310-316: keep the first entry
for each link. -/
def dedupByLink : List Entry → List (List Char) → List Entry
  | [], _ => []
  | a :: rest, seen =>
    if a.link ∈ seen then dedupByLink rest seen
    else a :: dedupByLink rest (a.link :: seen)

/-- The articles a bucket receives (lines 308-323): first entry per link,
capped at 8. -/
def outputBucketArticles (input : List (List Char × Entry)) (cat : List Char) :
    List Entry :=
  (dedupByLink (categoryCandidates input cat) []).take 8

/-- A bucket of the output database (lines 318-323). -/
structure Bucket where
  title : List Char
  desc : List Char
  icon : List Char
  articles : List Entry
deriving DecidableEq, Repr

/-- A formatted summary item (lines 360-364). -/
structure SummaryItem where
  text : List Char
  source : List Char
  url : List Char
deriving DecidableEq, Repr

/-- The root aggregate (line 270): summaries is a list holding one inner
list (line 366), categories an ordered key-to-bucket map. -/
structure ContentDatabase where
  summaries : List (List SummaryItem)
  categories : List (List Char × Bucket)
deriving DecidableEq, Repr

/-- CATEGORY_META (lines 150-181): key, title, description, icon path. -/
def CATEGORY_META : List (List Char × List Char × List Char × List Char) :=
  [(str "bigModel", str "大模型",
    str "GPT-5、Claude 4、Gemini Ultra 等前沿大模型技术突破与商业化进展追踪",
    str "M9.75 17L9 20l-1 1h8l-1-1-.75-3M3 13h18M5 17h14a2 2 0 002-2V5a2 2 0 00-2-2H5a2 2 0 00-2 2v10a2 2 0 002 2z"),
   (str "hardware", str "AI 硬件",
    str "算力芯片、机器人、端侧设备、AI Phone 等硬件载体技术革新与产业链动向",
    str "M9 3v2m6-2v2M9 19v2m6-2v2M5 9H3m2 6H3m18-6h-2m2 6h-2M7 19h10a2 2 0 002-2V7a2 2 0 00-2-2H7a2 2 0 00-2 2v10a2 2 0 002 2zM9 9h6v6H9V9z"),
   (str "global", str "出海动态",
    str "中国 AI 企业全球化布局、海外监管政策、跨境投融资与本地化战略分析",
    str "M3.055 11H5a2 2 0 012 2v1a2 2 0 002 2 2 2 0 012 2v2.945M8 3.935V5.5A2.5 2.5 0 0010.5 8h.5a2 2 0 012 2 2 2 0 104 0 2 2 0 012-2h1.064M15 20.488V18a2 2 0 012-2h3.064M21 12a9 9 0 11-18 0 9 9 0 0118 0z"),
   (str "investment", str "投融资",
    str "一级市场融资速递、独角兽估值变动、IPO 动态与资本风向解读",
    str "M12 8c-1.657 0-3 .895-3 2s1.343 2 3 2 3 .895 3 2-1.343 2-3 2m0-8c1.11 0 2.08.402 2.599 1M12 8V7m0 1v8m0 0v1m0-1c-1.11 0-2.08-.402-2.599-1M21 12a9 9 0 11-18 0 9 9 0 0118 0z"),
   (str "industry", str "产业观察",
    str "行业政策解读、竞争格局分析、技术趋势预测与商业模式演进研究",
    str "M19 21V5a2 2 0 00-2-2H7a2 2 0 00-2 2v16m14 0h2m-2 0h-5m-9 0H3m2 0h5M9 7h1m-1 4h1m4-4h1m-1 4h1m-5 10v-5a1 1 0 011-1h2a1 1 0 011 1v5m-4 0h4"),
   (str "product", str "产品快讯",
    str "AI 应用新品发布、功能更新、用户体验优化与市场化策略追踪报道",
    str "M13 10V3L4 14h7v7l9-11h-7z")]

/-- The ordered source-name groups of lines 328-333: a dict preserving
insertion order, each value the list of that source's entries in
processing order. -/
def lookupG : List (List Char × List Entry) → List Char → Option (List Entry)
  | [], _ => none
  | g :: gs, k => if g.1 = k then some g.2 else lookupG gs k

/-- Add one entry to the source groups (lines 329-333). -/
def addToGroups (gs : List (List Char × List Entry)) (a : Entry) :
    List (List Char × List Entry) :=
  match lookupG gs a.source with
  | some _ => gs.map (fun g => if g.1 = a.source then (g.1, g.2 ++ [a]) else g)
  | none => gs ++ [(a.source, [a])]

/-- source_groups (lines 328-333). -/
def groupBySource (l : List Entry) : List (List Char × List Entry) :=
  l.foldl addToGroups []

/-- priority_sources (line 337). -/
def PRIORITY_SOURCES : List (List Char) :=
  [str "OpenAI Blog", str "Anthropic News", str "Google DeepMind",
   str "Meta AI Blog", str "Hugging Face", str "NVIDIA Blog AI"]

/-- The priority pass of lines 339-343: for each listed source take the
first entry of its group, stopping once three are collected. -/
def priorityLoop (gs : List (List Char × List Entry)) :
    List (List Char) → List Entry → List Entry
  | [], acc => acc
  | src :: rest, acc =>
    let acc2 := match lookupG gs src with
      | some (e :: _) => acc ++ [e]
      | _ => acc
    if 3 ≤ acc2.length then acc2 else priorityLoop gs rest acc2

/-- The fill pass of lines 346-351: walk the groups in insertion order,
appending each first entry not already selected, stopping at three. -/
def fillLoop : List (List Char × List Entry) → List Entry → List Entry
  | [], acc => acc
  | g :: rest, acc =>
    let acc2 := match g.2 with
      | e :: _ => if e ∈ acc then acc else acc ++ [e]
      | [] => acc
    if 3 ≤ acc2.length then acc2 else fillLoop rest acc2

/-- The two selection passes over the source groups (lines 339-351): the
priority pass, then, only when fewer than three were collected, the fill
pass. -/
def selStage (gs : List (List Char × List Entry)) : List Entry :=
  let s1 := priorityLoop gs PRIORITY_SOURCES []
  if s1.length < 3 then fillLoop gs s1 else s1

/-- The summary selection of lines 326-355 applied to all_articles,
including the final cap of line 355. -/
def selectSummaries (arts : List Entry) : List Entry :=
  (selStage (groupBySource arts)).take 3

/-- The projection of lines 354-364: strip tags from the summary, truncate
at 150 characters, fall back to the title when empty. -/
def projectSummary (e : Entry) : SummaryItem :=
  let clean := stripTags e.summary
  let clean2 := if clean.length > 150 then clean.take 150 ++ str "..." else clean
  { text := if clean2 = [] then e.title else clean2
    source := e.source
    url := e.link }

/-- The inner summaries list (formatted, lines 354-366). -/
def summariesInner (input : List (List Char × Entry)) : List SummaryItem :=
  (selectSummaries (allArticles input)).map projectSummary

/-- build_content_database (lines 268-380) as a function of the fetched
records. The input pairs each entry with the category key its source was
configured under in SOURCES; fetching itself is the external collaborator
the spec scopes out. The final empty-categories fallback of lines 369-378
is dead code (the loop over CATEGORY_META always fills all six keys) and
is therefore not a separate branch here. -/
def build_content_database (input : List (List Char × Entry)) :
    ContentDatabase :=
  { summaries := [summariesInner input]
    categories := CATEGORY_META.map (fun m =>
      (m.1, { title := m.2.1, desc := m.2.2.1, icon := m.2.2.2
              articles := outputBucketArticles input m.1 })) }

/-- The literal part of the replacement before the serialized value:
`const contentDatabase = ` (lines 401-402). -/
def LITPART : List Char := str "const contentDatabase = "

/-- The marker the splicer searches for, `const contentDatabase = \x7b`
(the regex literal prefix of line 401 and the line test of line 409). -/
def MARKER : List Char := LITPART ++ ['\x7b']

/-- The two-character terminator pattern `\x7d;` that ends the non-greedy
regex match of line 401. -/
def SEMIPAT : List Char := ['\x7d', ';']

/-- Translation of
`re.sub(r'const contentDatabase = \x7b.*?\x7d;', replacement, html, flags=re.DOTALL)`
(lines 401-403). A match starts at the leftmost position where the marker
is a literal prefix and some later `\x7d;` exists; the non-greedy `.*?`
under DOTALL extends exactly to the first such `\x7d;`. The matched span
is replaced by `const contentDatabase = ` ++ json ++ `;` and scanning
resumes after the span. The serialized value is treated as an opaque
replacement string (its own bytes are outside every claim, which only
constrain the replaced span and the bytes around it). -/
def reSubF (json : List Char) : Nat → List Char → List Char
  | _, [] => []
  | 0, s => s
  | fuel + 1, c :: rest =>
    if isPre MARKER (c :: rest) then
      match subFind SEMIPAT ((c :: rest).drop MARKER.length) with
      | some j =>
          (LITPART ++ json ++ [';']) ++
            reSubF json fuel ((c :: rest).drop (MARKER.length + j + 2))
      | none => c :: reSubF json fuel rest
    else c :: reSubF json fuel rest

/-- The substitution applied to the whole document: the document length
bounds the number of scanning steps (every step consumes at least one
character), so the fuel never runs out. -/
def reSubCDB (json s : List Char) : List Char := reSubF json s.length s

/-- Python `s.split('\n')` (line 407). -/
def splitNl : List Char → List (List Char)
  | [] => [[]]
  | c :: rest =>
    if c = '\n' then [] :: splitNl rest
    else
      match splitNl rest with
      | l :: ls => (c :: l) :: ls
      | [] => [[c]]

/-- Python `'\n'.join(lines)` (line 417). -/
def joinNl : List (List Char) → List Char
  | [] => []
  | [l] => l
  | l :: ls => l ++ '\n' :: joinNl ls

/-- Occurrences of one character in a line (Python str.count, line 414). -/
def countChar (c : Char) (l : List Char) : Nat :=
  (l.filter (· = c)).length

/-- Index of the first list element satisfying a test. -/
def findFirstIdx (p : List Char → Bool) : List (List Char) → Option Nat
  | [] => none
  | l :: ls => if p l then some 0 else (findFirstIdx p ls).map (· + 1)

/-- The line scan of lines 411-419: starting from depth 1 on the marker
line, add each following line's brace count difference; answer the offset
of the line where the depth reaches exactly 0, none when the depth turns
negative or the document ends first (in Python the loop then falls through
without splicing). -/
def scanClose (b : Int) : List (List Char) → Option Nat
  | [] => none
  | l :: rest =>
    let b2 := b + (countChar '\x7b' l : Int) - (countChar '\x7d' l : Int)
    if b2 = 0 then some 0
    else if 0 < b2 then (scanClose b2 rest).map (· + 1)
    else none

/-- The line-based fallback of lines 406-420: find the first line
containing the marker, scan forward for the closing line with the depth
counter started at 1 (the extra braces of the marker line itself are not
counted), and replace the whole block by a single replacement line. When
no line contains the marker, or the scan never reaches depth 0, nothing is
assigned and the document is returned unchanged. -/
def lineFallback (json doc : List Char) : List Char :=
  let lines := splitNl doc
  match findFirstIdx (fun l => containsSub MARKER l) lines with
  | none => doc
  | some i =>
    match scanClose 1 (lines.drop (i + 1)) with
    | none => doc
    | some k =>
        joinNl (lines.take i ++ [LITPART ++ json ++ [';']] ++
          lines.drop (i + 1 + k + 1))

/-- The full replacement strategy of lines 400-420: the regex first; when
its output equals the input, the line-based fallback. -/
def spliceHtml (json doc : List Char) : List Char :=
  let r := reSubCDB json doc
  if r = doc then lineFallback json doc else r

/-- Observable outcome of one update_html_file run on a given document. -/
structure UpdateOutcome where
  newHtml : List Char
  reportedSuccess : Bool
deriving DecidableEq, Repr

/-- update_html_file (lines 382-430) restricted to its document
transformation: the file read and write are the input and output document,
and the serialized database is the json parameter. After the splice
attempt the script always writes new_html back and prints the success
banner of line 426; no branch checks whether anything was replaced and the
except clause of lines 428-430 is reachable only from the I/O and fetch
collaborators, not from the substitution logic. reportedSuccess therefore
is constantly true. -/
def update_html_file (json doc : List Char) : UpdateOutcome :=
  { newHtml := spliceHtml json doc, reportedSuccess := true }

/-- Modelled from the spec: the Relevance Filter of spec section 4.2 is
absent from src/scripts/update_news.py (no blocklist, disallowed-term or
domain-indicator check appears anywhere in the file; the repository's
other script iterations carry it). Configuration per the spec: blocklist
domains, disallowed terms, domain-indicator terms. -/
structure FilterConfig where
  blockedDomains : List (List Char)
  disallowedTerms : List (List Char)
  domainTerms : List (List Char)

/-- Modelled from the spec: reject when (a) the source URL matches a
blocklist domain, (b) the combined title and body text contains a
disallowed term, or (c) the title contains none of the domain-indicator
terms; all matches case-insensitive substring tests, any one match
rejects. -/
def relevanceReject (cfg : FilterConfig) (a : Entry) : Bool :=
  cfg.blockedDomains.any (fun d => containsSub d a.link)
  || cfg.disallowedTerms.any
      (fun t => containsSub (pyLower t) (pyLower (a.title ++ a.summary)))
  || !(cfg.domainTerms.any (fun t => containsSub (pyLower t) (pyLower a.title)))

/-- Modelled from the spec: the pipeline input after the Relevance Filter
drops rejected articles. -/
def filteredInput (cfg : FilterConfig) (input : List (List Char × Entry)) :
    List (List Char × Entry) :=
  input.filter (fun p => !(relevanceReject cfg p.2))

/-- The depth-counting scan of spec section 4.6: starting at a given depth,
consume characters, incrementing on `\x7b` and decrementing on `\x7d`;
answer how many characters are consumed when the depth first reaches 0.
Used to state that a literal is balanced-brace and where its matching
terminator sits. -/
def braceScan (d : Int) : List Char → Option Nat
  | [] => none
  | c :: rest =>
    let d2 := d + (if c = '\x7b' then 1 else 0) - (if c = '\x7d' then 1 else 0)
    if d2 = 0 then some 1 else (braceScan d2 rest).map (· + 1)

/-! ### Lemmas on the basic text scanners -/

theorem isPre_iff (pat s : List Char) :
    isPre pat s = true ↔ ∃ r, s = pat ++ r := by
  induction pat generalizing s with
  | nil => simp [isPre]
  | cons a as ih =>
    cases s with
    | nil => simp [isPre]
    | cons b bs =>
      simp only [isPre, Bool.and_eq_true, decide_eq_true_eq, ih]
      constructor
      · rintro ⟨rfl, r, rfl⟩
        exact ⟨r, rfl⟩
      · rintro ⟨r, h⟩
        cases h
        exact ⟨rfl, r, rfl⟩

theorem isPre_self_append (l r : List Char) : isPre l (l ++ r) = true :=
  (isPre_iff l (l ++ r)).mpr ⟨r, rfl⟩

theorem containsSub_iff (pat s : List Char) :
    containsSub pat s = true ↔ ∃ l r, s = l ++ pat ++ r := by
  induction s with
  | nil =>
    simp only [containsSub, subFind]
    constructor
    · intro h
      split at h
      · rename_i hp
        rcases (isPre_iff pat []).mp hp with ⟨r, hr⟩
        exact ⟨[], r, hr⟩
      · simp at h
    · rintro ⟨l, r, h⟩
      have : isPre pat [] = true := by
        rcases List.append_eq_nil.mp h.symm with ⟨h1, h2⟩
        rcases List.append_eq_nil.mp h1 with ⟨-, h3⟩
        subst h3
        simp [isPre]
      simp [this]
  | cons c rest ih =>
    simp only [containsSub, subFind]
    constructor
    · intro h
      split at h
      · rename_i hp
        rcases (isPre_iff pat _).mp hp with ⟨r, hr⟩
        exact ⟨[], r, hr⟩
      · rename_i hp
        have : (subFind pat rest).isSome = true := by
          cases hs : subFind pat rest <;> simp [hs] at h ⊢
        rcases ih.mp this with ⟨l, r, hr⟩
        exact ⟨c :: l, r, by simp [hr]⟩
    · rintro ⟨l, r, hr⟩
      cases l with
      | nil =>
        simp only [List.nil_append] at hr
        have hp : isPre pat (c :: rest) = true :=
          (isPre_iff _ _).mpr ⟨r, hr⟩
        simp [hp]
      | cons x xs =>
        simp only [List.cons_append] at hr
        cases hr
        have hsome : (subFind pat (xs ++ pat ++ r)).isSome = true :=
          ih.mpr ⟨xs, r, rfl⟩
        split
        · simp
        · cases hs : subFind pat (xs ++ pat ++ r) with
          | none => rw [hs] at hsome; simp at hsome
          | some v => simp [hs]

theorem containsSub_false_of_between {pat line s : List Char}
    (h : containsSub pat s = false) (hin : ∃ p q, s = p ++ line ++ q) :
    containsSub pat line = false := by
  by_contra hc
  have hc2 : containsSub pat line = true := by
    cases h2 : containsSub pat line
    · exact absurd h2 hc
    · rfl
  rcases (containsSub_iff pat line).mp hc2 with ⟨l, r, hr⟩
  rcases hin with ⟨p, q, hs⟩
  have : containsSub pat s = true := by
    refine (containsSub_iff pat s).mpr ⟨p ++ l, r ++ q, ?_⟩
    subst hr hs
    simp
  rw [this] at h
  exact absurd h (by simp)

theorem subFind_cons_none {pat : List Char} {c : Char} {rest : List Char}
    (h : subFind pat (c :: rest) = none) :
    isPre pat (c :: rest) = false ∧ subFind pat rest = none := by
  simp only [subFind] at h
  split at h
  · exact absurd h (by simp)
  · rename_i hp
    cases hs : subFind pat rest
    · exact ⟨by simp [Bool.not_eq_true] at hp ⊢; exact hp, rfl⟩
    · simp [hs] at h

theorem containsSub_cons_false {pat : List Char} {c : Char} {rest : List Char}
    (h : containsSub pat (c :: rest) = false) :
    isPre pat (c :: rest) = false ∧ containsSub pat rest = false := by
  simp only [containsSub] at h ⊢
  cases hs : subFind pat (c :: rest) with
  | some v => simp [hs] at h
  | none =>
    rcases subFind_cons_none hs with ⟨h1, h2⟩
    exact ⟨h1, by simp [h2]⟩

theorem drop_len_append (l r : List Char) : (l ++ r).drop l.length = r := by
  induction l with
  | nil => simp
  | cons c cs ih => simp [ih]

/-! ### Splicer lemmas -/

theorem reSubF_irrel (json : List Char) :
    ∀ f1 f2 s, s.length ≤ f1 → s.length ≤ f2 →
      reSubF json f1 s = reSubF json f2 s := by
  intro f1
  induction f1 with
  | zero =>
    intro f2 s h1 _
    have hs : s = [] := List.length_eq_zero.mp (Nat.le_zero.mp h1)
    subst hs
    cases f2 <;> rfl
  | succ f ih =>
    intro f2 s h1 h2
    cases s with
    | nil => cases f2 <;> rfl
    | cons c rest =>
      cases f2 with
      | zero => simp at h2
      | succ f2b =>
        simp only [List.length_cons, Nat.succ_le_succ_iff] at h1 h2
        simp only [reSubF]
        by_cases hp : isPre MARKER (c :: rest) = true
        · simp only [hp, if_true]
          cases hj : subFind SEMIPAT ((c :: rest).drop MARKER.length) with
          | some j =>
            have hl : (List.drop (MARKER.length + j + 1) rest).length ≤ f := by
              simp only [List.length_drop]
              omega
            have hl2 : (List.drop (MARKER.length + j + 1) rest).length ≤ f2b := by
              simp only [List.length_drop]
              omega
            simp [hj, ih f2b _ hl hl2]
          | none => simp [ih f2b rest h1 h2]
        · simp only [Bool.not_eq_true] at hp
          simp [hp, ih f2b rest h1 h2]

theorem reSub_id_f (json : List Char) :
    ∀ fuel s, s.length ≤ fuel → containsSub MARKER s = false →
      reSubF json fuel s = s := by
  intro fuel
  induction fuel with
  | zero =>
    intro s h1 _
    have hs : s = [] := List.length_eq_zero.mp (Nat.le_zero.mp h1)
    subst hs
    rfl
  | succ f ih =>
    intro s h1 h
    cases s with
    | nil => rfl
    | cons c rest =>
      rcases containsSub_cons_false h with ⟨hp, h2⟩
      simp only [List.length_cons, Nat.succ_le_succ_iff] at h1
      simp only [reSubF]
      simp [hp, ih rest h1 h2]

theorem reSub_id (json s : List Char) (h : containsSub MARKER s = false) :
    reSubCDB json s = s :=
  reSub_id_f json s.length s le_rfl h

theorem splitNl_ne_nil (s : List Char) : splitNl s ≠ [] := by
  cases s with
  | nil => simp [splitNl]
  | cons c rest =>
    rw [splitNl]
    split
    · simp
    · split <;> simp

theorem splitNl_head :
    ∀ s l ls, splitNl s = l :: ls → ∃ t, s = l ++ t := by
  intro s
  induction s with
  | nil =>
    intro l ls h
    simp [splitNl] at h
    exact ⟨[], by simp [h.1.symm]⟩
  | cons c rest ih =>
    intro l ls h
    rw [splitNl] at h
    by_cases hc : c = '\n'
    · rw [if_pos hc] at h
      cases h
      exact ⟨c :: rest, rfl⟩
    · rw [if_neg hc] at h
      cases hsp : splitNl rest with
      | nil => exact absurd hsp (splitNl_ne_nil rest)
      | cons l2 ls2 =>
        rw [hsp] at h
        injection h with h1 h2
        subst h1
        rcases ih l2 ls2 hsp with ⟨t, ht⟩
        exact ⟨t, by simp [ht]⟩

theorem splitNl_chunk :
    ∀ s line, line ∈ splitNl s → ∃ p q, s = p ++ line ++ q := by
  intro s
  induction s with
  | nil =>
    intro line h
    simp [splitNl] at h
    exact ⟨[], [], by simp [h]⟩
  | cons c rest ih =>
    intro line h
    rw [splitNl] at h
    by_cases hc : c = '\n'
    · rw [if_pos hc] at h
      subst hc
      rcases List.mem_cons.mp h with h | h
      · exact ⟨[], '\n' :: rest, by simp [h]⟩
      · rcases ih line h with ⟨p, q, hr⟩
        exact ⟨'\n' :: p, q, by simp [hr]⟩
    · rw [if_neg hc] at h
      cases hsp : splitNl rest with
      | nil => exact absurd hsp (splitNl_ne_nil rest)
      | cons l2 ls2 =>
        rw [hsp] at h
        rcases List.mem_cons.mp h with h | h
        · subst h
          rcases splitNl_head rest l2 ls2 hsp with ⟨t, ht⟩
          exact ⟨[], t, by simp [ht]⟩
        · have hmem : line ∈ splitNl rest := by
            rw [hsp]; exact List.mem_cons_of_mem _ h
          rcases ih line hmem with ⟨p, q, hr⟩
          exact ⟨c :: p, q, by simp [hr]⟩

theorem findFirstIdx_none (p : List Char → Bool) :
    ∀ ls, (∀ l ∈ ls, p l = false) → findFirstIdx p ls = none := by
  intro ls
  induction ls with
  | nil => intro _; rfl
  | cons l rest ih =>
    intro h
    rw [findFirstIdx]
    rw [h l (List.mem_cons_self l rest), ih fun x hx => h x (List.mem_cons_of_mem _ hx)]
    rfl

theorem lineFallback_id (json doc : List Char)
    (h : containsSub MARKER doc = false) : lineFallback json doc = doc := by
  have hl : ∀ l ∈ splitNl doc, containsSub MARKER l = false := by
    intro l hm
    exact containsSub_false_of_between h (splitNl_chunk doc l hm)
  rw [lineFallback]
  rw [findFirstIdx_none _ _ hl]

theorem spliceHtml_id (json doc : List Char)
    (h : containsSub MARKER doc = false) : spliceHtml json doc = doc := by
  rw [spliceHtml, reSub_id json doc h]
  simp [lineFallback_id json doc h]

theorem subFind_of_isPre (pat s : List Char) (hp : isPre pat s = true)
    (hs : s ≠ []) : subFind pat s = some 0 := by
  cases s with
  | nil => exact absurd rfl hs
  | cons c rest => rw [subFind]; simp [hp]

theorem subFind_semipat (mid rest : List Char)
    (h : containsSub SEMIPAT mid = false) :
    subFind SEMIPAT (mid ++ (SEMIPAT ++ rest)) = some mid.length := by
  induction mid with
  | nil =>
    simp only [List.nil_append, List.length_nil]
    refine subFind_of_isPre _ _ (isPre_self_append _ _) ?_
    simp [SEMIPAT]
  | cons m mid2 ih =>
    rcases containsSub_cons_false h with ⟨h1, h2⟩
    have hq : isPre SEMIPAT (m :: (mid2 ++ (SEMIPAT ++ rest))) = false := by
      cases hv : isPre SEMIPAT (m :: (mid2 ++ (SEMIPAT ++ rest)))
      · rfl
      · exfalso
        rcases (isPre_iff SEMIPAT _).mp hv with ⟨r, hr⟩
        have hsp : SEMIPAT ++ r = '\x7d' :: (';' :: r) := rfl
        rw [hsp] at hr
        injection hr with e1 e2
        cases mid2 with
        | nil => simp [SEMIPAT] at e2
        | cons x mid3 =>
          simp only [List.cons_append] at e2
          injection e2 with e3 _
          subst e1
          subst e3
          simp [SEMIPAT, isPre] at h1
    simp only [List.cons_append]
    rw [subFind, hq]
    simp only [Bool.false_eq_true, if_false]
    rw [ih h2]
    simp

theorem reSub_walk_f (json : List Char) :
    ∀ pre fuel s, (pre ++ s).length ≤ fuel →
      subFind MARKER (pre ++ s) = some pre.length →
      reSubF json fuel (pre ++ s) = pre ++ reSubCDB json s := by
  intro pre
  induction pre with
  | nil =>
    intro fuel s hf _
    simp only [List.nil_append] at hf ⊢
    exact reSubF_irrel json fuel s.length s hf le_rfl
  | cons c pre2 ih =>
    intro fuel s hf h
    simp only [List.cons_append, List.length_cons] at h hf ⊢
    cases fuel with
    | zero => omega
    | succ f =>
      rw [subFind] at h
      have hp : isPre MARKER (c :: (pre2 ++ s)) = false := by
        cases hv : isPre MARKER (c :: (pre2 ++ s))
        · rfl
        · rw [hv] at h
          simp at h
      rw [hp] at h
      simp only [Bool.false_eq_true, if_false] at h
      have h2 : subFind MARKER (pre2 ++ s) = some pre2.length := by
        cases hs : subFind MARKER (pre2 ++ s) with
        | none => rw [hs] at h; simp at h
        | some v =>
          rw [hs] at h
          simp at h
          simp [hs, h]
      simp only [reSubF]
      simp only [hp, Bool.false_eq_true, if_false]
      rw [ih f s (by omega) h2]

theorem reSub_walk (json pre s : List Char)
    (h : subFind MARKER (pre ++ s) = some pre.length) :
    reSubCDB json (pre ++ s) = pre ++ reSubCDB json s :=
  reSub_walk_f json pre (pre ++ s).length s le_rfl h

theorem reSub_match_f (json mid post : List Char)
    (hmid : containsSub SEMIPAT mid = false)
    (hpost : containsSub MARKER post = false) :
    ∀ fuel, (MARKER ++ (mid ++ (SEMIPAT ++ post))).length ≤ fuel →
      reSubF json fuel (MARKER ++ (mid ++ (SEMIPAT ++ post)))
        = (LITPART ++ json ++ [';']) ++ post := by
  intro fuel hf
  have hdrop : (MARKER ++ (mid ++ (SEMIPAT ++ post))).drop MARKER.length
      = mid ++ (SEMIPAT ++ post) := drop_len_append _ _
  have hfind : subFind SEMIPAT
      ((MARKER ++ (mid ++ (SEMIPAT ++ post))).drop MARKER.length)
      = some mid.length := by
    rw [hdrop]
    exact subFind_semipat mid post hmid
  have hdrop2 : (MARKER ++ (mid ++ (SEMIPAT ++ post))).drop
      (MARKER.length + mid.length + 2) = post := by
    have hshape : MARKER ++ (mid ++ (SEMIPAT ++ post))
        = (MARKER ++ mid ++ SEMIPAT) ++ post := by simp
    have hlen : (MARKER ++ mid ++ SEMIPAT).length
        = MARKER.length + mid.length + 2 := by
      simp [SEMIPAT]
      try omega
    rw [hshape, ← hlen]
    exact drop_len_append _ _
  have hpre0 : isPre MARKER (MARKER ++ (mid ++ (SEMIPAT ++ post))) = true :=
    isPre_self_append _ _
  cases hM : MARKER ++ (mid ++ (SEMIPAT ++ post)) with
  | nil =>
    exfalso
    have hlc := congrArg List.length hM
    simp [MARKER, LITPART, str] at hlc
  | cons c rest =>
    rw [hM] at hpre0 hfind hdrop2 hf
    cases fuel with
    | zero => simp at hf
    | succ f =>
      have hpostlen : post.length ≤ f := by
        have hld := congrArg List.length hdrop2
        simp only [List.length_drop, List.length_cons] at hld
        simp only [List.length_cons] at hf
        omega
      simp only [reSubF, hpre0, if_true, hfind]
      rw [hdrop2]
      rw [reSub_id_f json f post hpostlen hpost]

theorem reSub_match (json mid post : List Char)
    (hmid : containsSub SEMIPAT mid = false)
    (hpost : containsSub MARKER post = false) :
    reSubCDB json (MARKER ++ (mid ++ (SEMIPAT ++ post))) =
      (LITPART ++ json ++ [';']) ++ post :=
  reSub_match_f json mid post hmid hpost _ le_rfl

/-! ### Claims C1 and C2: the Document Splicer -/

/-- Claim C1, counterexample. The claim states that on a host document
without the marker, update_html_file signals failure distinctly from a
successful update and never reports success when nothing was replaced. On
the concrete document `plain page, no marker` nothing is replaced (the
output is byte-identical), yet the run ends in the unconditional success
banner of line 426: reportedSuccess is true, so the claim is false. -/
theorem c1_counterexample :
    (update_html_file (str "\x7b\x7d") (str "plain page, no marker")).newHtml
        = str "plain page, no marker"
    ∧ (update_html_file (str "\x7b\x7d")
        (str "plain page, no marker")).reportedSuccess = true := by
  constructor
  · decide
  · rfl

/-- Claim C1, amended: for every host document in which the marker
`const contentDatabase = \x7b` is absent, update_html_file leaves the
document byte-identical to the input, but it does not signal failure: the
script reports success unconditionally, so a caller cannot distinguish a
no-op run from an applied update. -/
theorem c1_amended (json doc : List Char)
    (h : containsSub MARKER doc = false) :
    update_html_file json doc = ⟨doc, true⟩ := by
  unfold update_html_file
  rw [spliceHtml_id json doc h]

/-- Claim C1, witness for the amended theorem at a concrete document. -/
theorem c1_amended_witness :
    containsSub MARKER (str "static page") = false
    ∧ update_html_file (str "\x7b\x7d") (str "static page")
        = ⟨str "static page", true⟩ :=
  ⟨by decide, c1_amended (str "\x7b\x7d") (str "static page") (by decide)⟩

/-- Claim C2, counterexample. Two concrete runs refute the claim. First,
the host document `const contentDatabase = \x7b"a": "\x7bx\x7d; ok"\x7d;T`
contains the marker exactly once, followed by a balanced-brace literal
(the depth scan started at the marker brace consumes 15 characters and
ends exactly at the matching terminator, position of the final brace
before `;T`). Under the claim the whole literal is replaced and every
byte outside it kept, which would give `const contentDatabase = \x7b\x7d;T`.
The code instead matches non-greedily up to the first `\x7d;`, which here
lies inside a string field of the literal, and leaves the tail
` ok"\x7d;` of the old literal in the document: the replacement is not a
depth-tracking scan. Second, even when the first `\x7d;` is the matching
terminator, the bytes outside the literal are not always preserved: when
the serialized value equals the replaced literal, the regex substitution
is byte-identical, the script falls into the line-based fallback of lines
406-420, and the fallback replaces whole lines - on an indented marker
line the two spaces before the marker are deleted. -/
theorem c2_counterexample :
    subFind MARKER
      (str "const contentDatabase = \x7b\"a\": \"\x7bx\x7d; ok\"\x7d;T")
      = some 0
    ∧ containsSub MARKER
        ((str "const contentDatabase = \x7b\"a\": \"\x7bx\x7d; ok\"\x7d;T").drop 1)
        = false
    ∧ braceScan 1 (str "\"a\": \"\x7bx\x7d; ok\"\x7d;T") = some 15
    ∧ (update_html_file (str "\x7b\x7d")
        (str "const contentDatabase = \x7b\"a\": \"\x7bx\x7d; ok\"\x7d;T")).newHtml
        = str "const contentDatabase = \x7b\x7d; ok\"\x7d;T"
    ∧ (update_html_file (str "\x7b\x7d")
        (str "const contentDatabase = \x7b\"a\": \"\x7bx\x7d; ok\"\x7d;T")).newHtml
        ≠ str "const contentDatabase = \x7b\x7d;T"
    ∧ reSubCDB (str "\x7b\n1\x7d")
        (str "  const contentDatabase = \x7b\n1\x7d;\nT")
        = str "  const contentDatabase = \x7b\n1\x7d;\nT"
    ∧ (update_html_file (str "\x7b\n1\x7d")
        (str "  const contentDatabase = \x7b\n1\x7d;\nT")).newHtml
        = str "const contentDatabase = \x7b\n1\x7d;\nT" := by
  refine ⟨by decide, by decide, by decide, by decide, by decide, by decide,
    by decide⟩

/-- Claim C2, amended: for every host document of the form
pre ++ marker ++ mid ++ `\x7d;` ++ post in which the marker first occurs
at that position, mid contains no `\x7d;` of its own, no further marker
occurrence lies in post, and the inserted serialized value differs from
the replaced literal `\x7b` ++ mid ++ `\x7d`, update_html_file replaces
exactly the span from the marker through that first `\x7d;` with the new
assignment, and every byte of pre and post is unchanged: the replacement
is the non-greedy regex match up to the first `\x7d;`, not a
depth-tracking scan. The difference condition is part of the claim and
necessary: when the inserted value equals the old literal, the regex
substitution is byte-identical, the script falls into its line-based
fallback, and that fallback rewrites whole lines, deleting any bytes
before the marker on its line (demonstrated in the counterexample). -/
theorem c2_amended (json pre mid post : List Char)
    (h1 : subFind MARKER (pre ++ (MARKER ++ (mid ++ (SEMIPAT ++ post))))
        = some pre.length)
    (h2 : containsSub SEMIPAT mid = false)
    (h3 : containsSub MARKER post = false)
    (h4 : json ≠ '\x7b' :: (mid ++ ['\x7d'])) :
    update_html_file json (pre ++ (MARKER ++ (mid ++ (SEMIPAT ++ post))))
      = ⟨pre ++ ((LITPART ++ json ++ [';']) ++ post), true⟩ := by
  have hr : reSubCDB json (pre ++ (MARKER ++ (mid ++ (SEMIPAT ++ post))))
      = pre ++ ((LITPART ++ json ++ [';']) ++ post) := by
    rw [reSub_walk json pre _ h1, reSub_match json mid post h2 h3]
  have hneq : pre ++ ((LITPART ++ json ++ [';']) ++ post)
      ≠ pre ++ (MARKER ++ (mid ++ (SEMIPAT ++ post))) := by
    intro he
    apply h4
    have e1 : (LITPART ++ json ++ [';']) ++ post
        = MARKER ++ (mid ++ (SEMIPAT ++ post)) := by
      exact List.append_cancel_left he
    have e2 : LITPART ++ (json ++ (';' :: post))
        = LITPART ++ (('\x7b' :: (mid ++ ['\x7d'])) ++ (';' :: post)) := by
      calc LITPART ++ (json ++ (';' :: post))
          = (LITPART ++ json ++ [';']) ++ post := by simp
        _ = MARKER ++ (mid ++ (SEMIPAT ++ post)) := e1
        _ = LITPART ++ (('\x7b' :: (mid ++ ['\x7d'])) ++ (';' :: post)) := by
            simp [MARKER, SEMIPAT]
    have e3 : json ++ (';' :: post)
        = ('\x7b' :: (mid ++ ['\x7d'])) ++ (';' :: post) := by
      exact List.append_cancel_left e2
    exact List.append_cancel_right e3
  unfold update_html_file spliceHtml
  rw [hr]
  rw [if_neg hneq]

/-- Claim C2, witness for the amended theorem at a concrete document with
a nested value in the replacement. -/
theorem c2_amended_witness :
    subFind MARKER (str "<html>" ++ (MARKER ++ (str "\"a\": 1" ++
        (SEMIPAT ++ str "rest")))) = some 6
    ∧ update_html_file (str "\x7b\"b\": 2\x7d")
        (str "<html>" ++ (MARKER ++ (str "\"a\": 1" ++ (SEMIPAT ++ str "rest"))))
        = ⟨str "<html>" ++ ((LITPART ++ str "\x7b\"b\": 2\x7d" ++ [';']) ++
            str "rest"), true⟩ :=
  ⟨by decide,
   c2_amended (str "\x7b\"b\": 2\x7d") (str "<html>") (str "\"a\": 1")
     (str "rest") (by decide) (by decide) (by decide) (by decide)⟩

/-! ### Normalizer lemmas -/

theorem findGt_eq_none_iff (s : List Char) :
    findGt s = none ↔ '>' ∉ s := by
  induction s with
  | nil => simp [findGt]
  | cons c rest ih =>
    rw [findGt]
    by_cases hc : c = '>'
    · simp [hc]
    · rw [if_neg hc]
      constructor
      · intro h
        have h2 : findGt rest = none := by
          cases hr : findGt rest
          · rfl
          · rw [hr] at h; simp at h
        intro hm
        rcases List.mem_cons.mp hm with hm | hm
        · exact hc hm.symm
        · exact (ih.mp h2) hm
      · intro hm
        have h2 : '>' ∉ rest := fun hx => hm (List.mem_cons_of_mem _ hx)
        rw [ih.mpr h2]
        rfl

theorem findGt_some_zero {s : List Char} (h : findGt s = some 0) :
    ∃ t, s = '>' :: t := by
  cases s with
  | nil => simp [findGt] at h
  | cons c rest =>
    rw [findGt] at h
    by_cases hc : c = '>'
    · exact ⟨rest, by rw [hc]⟩
    · rw [if_neg hc] at h
      cases hr : findGt rest <;> rw [hr] at h <;> simp at h

theorem stripTagsF_mem :
    ∀ fuel s (a : Char), a ∈ stripTagsF fuel s → a ∈ s := by
  intro fuel
  induction fuel with
  | zero =>
    intro s a h
    cases s with
    | nil => simp [stripTagsF] at h
    | cons c rest => exact h
  | succ f ih =>
    intro s a h
    cases s with
    | nil => simp [stripTagsF] at h
    | cons c rest =>
      rw [stripTagsF] at h
      by_cases hc : c = '<'
      · rw [if_pos hc] at h
        cases hg : findGt rest with
        | none =>
          rw [hg] at h
          rcases List.mem_cons.mp h with h | h
          · simp [h]
          · exact List.mem_cons_of_mem _ (ih rest a h)
        | some k =>
          rw [hg] at h
          cases k with
          | zero =>
            rcases List.mem_cons.mp h with h | h
            · simp [h]
            · exact List.mem_cons_of_mem _ (ih rest a h)
          | succ k2 =>
            have := ih _ a h
            exact List.mem_cons_of_mem _ (List.drop_subset _ _ this)
      · rw [if_neg hc] at h
        rcases List.mem_cons.mp h with h | h
        · simp [h]
        · exact List.mem_cons_of_mem _ (ih rest a h)

theorem hasTag_stripTagsF :
    ∀ n fuel s, s.length ≤ fuel → fuel ≤ n →
      hasTag (stripTagsF fuel s) = false := by
  intro n
  induction n with
  | zero =>
    intro fuel s h1 h2
    have hf : fuel = 0 := Nat.le_zero.mp h2
    subst hf
    have hs : s = [] := List.length_eq_zero.mp (Nat.le_zero.mp h1)
    subst hs
    rfl
  | succ n ih =>
    intro fuel s h1 h2
    cases s with
    | nil =>
      cases fuel <;> rfl
    | cons c rest =>
      cases fuel with
      | zero => simp at h1
      | succ f =>
        simp only [List.length_cons, Nat.succ_le_succ_iff] at h1 h2
        rw [stripTagsF]
        by_cases hc : c = '<'
        · rw [if_pos hc]
          cases hg : findGt rest with
          | none =>
            have hnotin : '>' ∉ stripTagsF f rest := fun hm =>
              (findGt_eq_none_iff rest).mp hg (stripTagsF_mem f rest '>' hm)
            have hgt2 : findGt (stripTagsF f rest) = none :=
              (findGt_eq_none_iff _).mpr hnotin
            rw [hasTag, hgt2]
            simp [ih f rest h1 h2]
          | some k =>
            cases k with
            | zero =>
              rcases findGt_some_zero hg with ⟨rest2, hr⟩
              subst hr
              simp only [List.length_cons, Nat.succ_le_succ_iff] at h1
              cases f with
              | zero => omega
              | succ f2 =>
                have hu : stripTagsF (f2 + 1) ('>' :: rest2)
                    = '>' :: stripTagsF f2 rest2 := by
                  rw [stripTagsF]
                  simp
                have hih : hasTag (stripTagsF f2 rest2) = false :=
                  ih f2 rest2 (by omega) (by omega)
                rw [hu, hasTag]
                have hg2 : findGt ('>' :: stripTagsF f2 rest2) = some 0 := by
                  rw [findGt]
                  simp
                rw [hg2, hasTag]
                simp [hih]
            | succ k2 =>
              apply ih f
              · simp only [List.length_drop]
                omega
              · exact h2
        · rw [if_neg hc]
          rw [hasTag]
          have h3 : (c = '<' : Bool) = false := by simp [hc]
          simp [h3, ih f rest h1 h2]

/-- No complete tag survives the strip: for every input, the output of the
tag-removal regex contains no substring matching `<[^>]+>`. -/
theorem stripTags_no_tag (s : List Char) : hasTag (stripTags s) = false :=
  hasTag_stripTagsF s.length s.length s le_rfl le_rfl

/-! ### Claim C6: the Text Normalizer -/

/-- Claim C6, counterexample. The summary normalization is only the regex
tag removal followed by translate_summary: nothing decodes HTML entities
and nothing collapses whitespace. On the concrete feed text
`&amp;(tab)<b>A</b> 1 < 2` the named entity, the tab and the stray `<`
all survive into the output, refuting the claim that the output contains
no residual entities, no angle brackets and single-space runs only. -/
theorem c6_counterexample :
    summaryNormalize (str "&amp;\t<b>A</b> 1 < 2") (str "Feed")
        = str "&amp;\ta 1 < 2"
    ∧ containsSub (str "&amp;")
        (summaryNormalize (str "&amp;\t<b>A</b> 1 < 2") (str "Feed")) = true
    ∧ '\t' ∈ summaryNormalize (str "&amp;\t<b>A</b> 1 < 2") (str "Feed")
    ∧ '<' ∈ summaryNormalize (str "&amp;\t<b>A</b> 1 < 2") (str "Feed") := by
  refine ⟨by decide, by decide, by decide, by decide⟩

/-- Claim C6, amended: the normalization applied to article summaries
removes every complete tag-like substring - no match of `<[^>]+>` remains
in the stripped text - but it neither decodes HTML entities nor collapses
whitespace, and a stray `<` or `>` that is not part of a complete tag
survives. -/
theorem c6_amended : ∀ s : List Char, hasTag (stripTags s) = false :=
  stripTags_no_tag

/-! ### Translator lemmas -/

theorem lookupChar_mem :
    ∀ (ps : List (Char × Char)) (c d : Char),
      lookupChar ps c = some d → (c, d) ∈ ps := by
  intro ps
  induction ps with
  | nil => intro c d h; simp [lookupChar] at h
  | cons p rest ih =>
    intro c d h
    rw [lookupChar] at h
    by_cases hp : p.1 = c
    · rw [if_pos hp] at h
      injection h with h2
      subst hp
      subst h2
      exact List.mem_cons_self _ _
    · rw [if_neg hp] at h
      exact List.mem_cons_of_mem _ (ih c d h)

theorem asciiLower_idem (c : Char) :
    asciiLower (asciiLower c) = asciiLower c := by
  unfold asciiLower
  cases h : lookupChar casePairs c with
  | none => simp [h]
  | some d =>
    have hmem := lookupChar_mem casePairs c d h
    have hall : ∀ p ∈ casePairs, lookupChar casePairs p.2 = none := by decide
    have hnone : lookupChar casePairs d = none := hall (c, d) hmem
    simp [h, hnone]

theorem pyLower_idem (s : List Char) : pyLower (pyLower s) = pyLower s := by
  induction s with
  | nil => rfl
  | cons c rest ih =>
    simp only [pyLower, List.map_cons] at ih ⊢
    rw [asciiLower_idem, ih]

/-! ### Claims C7 and C8: the Translator -/

/-- Claim C7, counterexample. The claim promises whole-word substitution:
a source term occurring only inside a longer word must not be replaced.
In the title `Happily announcing investment` the table key `app` occurs
only inside the word `happily`, yet str.replace substitutes it anyway,
producing `H应用ily 发布 投资` (with `应用`, the mapping of `app`, spliced
into the middle of the word). -/
theorem c7_counterexample :
    containsSub (str "app") (pyLower (str "Happily announcing investment")) = true
    ∧ translate_title (str "Happily announcing investment")
        = str "H应用ily 发布 投资"
    ∧ containsSub (str "h应用ily")
        (pyLower (translate_title (str "Happily announcing investment"))) = true := by
  refine ⟨by decide, by decide, by decide⟩

/-- Claim C7, amended: the substitution table is applied
longest-source-term-first (the applied order is sorted by key length,
descending, ties in dictionary order), and each entry is a plain
substring replacement performed on the lower-cased text - case-insensitive
in the source term, but a source term occurring inside a longer word is
replaced as well, so the substitution is not whole-word. Lower-casing
first makes the pass insensitive to the case of the input: running the
substitution on an already lower-cased text gives the same result. -/
theorem c7_amended :
    isSortedLenDesc sortedTranslationPairs = true
    ∧ ∀ s : List Char,
        applySubst (pyLower (pyLower s)) = applySubst (pyLower s) := by
  constructor
  · decide
  · intro s
    rw [pyLower_idem]

/-- Claim C8, counterexample. The claim says a text whose target-script
fraction meets or exceeds the threshold is returned unchanged. The
threshold test of line 71 is strict: on the title `中中中ABCDEFG` the
Chinese fraction equals the threshold exactly (3 of 10 characters), the
short-circuit is not taken, and the title comes back lower-cased - a
changed text. -/
theorem c8_counterexample :
    10 * countChinese (str "中中中ABCDEFG") ≥ 3 * (str "中中中ABCDEFG").length
    ∧ translate_title (str "中中中ABCDEFG") ≠ str "中中中ABCDEFG"
    ∧ translate_title (str "中中中ABCDEFG") = str "中中中abcdefg" := by
  refine ⟨by decide, by decide, by decide⟩

/-- Claim C8, amended: when the target-script fraction STRICTLY exceeds
the threshold (0.3 for titles, 0.2 for summaries), translate_title
returns the title unchanged - with no truncation at all - and
translate_summary returns the tag-stripped text truncated at 120
characters; the title path is therefore idempotent on such text. The
functions are total, and when the substitution pass leaves fewer than 3
Chinese characters the original title is returned with the foreign-source
prefix. -/
theorem c8_amended :
    (∀ t : List Char, 10 * countChinese t > 3 * t.length →
        translate_title t = t)
    ∧ (∀ t : List Char, 10 * countChinese t > 3 * t.length →
        translate_title (translate_title t) = translate_title t)
    ∧ (∀ t source : List Char, t ≠ [] →
        5 * countChinese (stripTags t) > (stripTags t).length →
        translate_summary t source =
          (if (stripTags t).length > 120
           then (stripTags t).take 120 ++ str "..."
           else stripTags t))
    ∧ (∀ t : List Char, t ≠ [] →
        ¬ 10 * countChinese t > 3 * t.length →
        countChinese (pyCapitalize (applySubst (pyLower t))) < 3 →
        translate_title t = str "[海外] " ++ t) := by
  have hA : ∀ t : List Char, 10 * countChinese t > 3 * t.length →
      translate_title t = t := by
    intro t h
    have ht : t ≠ [] := by
      intro he
      subst he
      simp [countChinese] at h
    simp only [translate_title, ht, if_false, h, if_true]
  refine ⟨hA, ?_, ?_, ?_⟩
  · intro t h
    rw [hA t h, hA t h]
  · intro t source ht h
    simp only [translate_summary, ht, if_false]
    rw [if_pos h]
  · intro t ht h2 h3
    simp only [translate_title, ht, if_false]
    rw [if_neg h2, if_pos h3]

/-- Claim C8, witness for the amended theorem: an already-Chinese title is
returned unchanged. -/
theorem c8_amended_witness :
    10 * countChinese (str "安全研究进展") > 3 * (str "安全研究进展").length
    ∧ translate_title (str "安全研究进展") = str "安全研究进展" :=
  ⟨by decide, c8_amended.1 (str "安全研究进展") (by decide)⟩

/-! ### Claim C4: the Classifier -/

/-- Claim C4, counterexample. The claim says that when no keyword set
matches, the article is assigned to the default bucket `product`. In the
code the default is the category the source was configured under: a
keyword-free title from a hardware source stays in `hardware`. -/
theorem c4_counterexample :
    INVESTMENT_KEYWORDS.any
        (fun k => containsSub k (pyLower (str "hello"))) = false
    ∧ PRODUCT_KEYWORDS.any
        (fun k => containsSub k (pyLower (str "hello"))) = false
    ∧ classify (str "hardware") (str "hello") = str "hardware"
    ∧ classify (str "hardware") (str "hello") ≠ str "product" := by
  refine ⟨by decide, by decide, by decide, by decide⟩

/-- Claim C4, amended: classification is a total deterministic function of
the source category and the lower-cased title; for every source category
in the six-key enumeration the result is one of the six keys; investment
keywords are tested first and win over launch keywords; launch keywords
reassign to `product` unless the source category is `product` or
`bigModel`; and when no keyword matches the article stays in its source
category - the fallback is the source category, not a fixed `product`
bucket. -/
theorem c4_amended (cat title : List Char) (h : cat ∈ CATEGORY_KEYS) :
    classify cat title ∈ CATEGORY_KEYS
    ∧ (INVESTMENT_KEYWORDS.any
        (fun k => containsSub k (pyLower title)) = true →
        classify cat title = str "investment")
    ∧ (INVESTMENT_KEYWORDS.any
        (fun k => containsSub k (pyLower title)) = false →
        PRODUCT_KEYWORDS.any
        (fun k => containsSub k (pyLower title)) = true →
        (cat = str "product" ∨ cat = str "bigModel") →
        classify cat title = cat)
    ∧ (INVESTMENT_KEYWORDS.any
        (fun k => containsSub k (pyLower title)) = false →
        PRODUCT_KEYWORDS.any
        (fun k => containsSub k (pyLower title)) = true →
        ¬ (cat = str "product" ∨ cat = str "bigModel") →
        classify cat title = str "product")
    ∧ (INVESTMENT_KEYWORDS.any
        (fun k => containsSub k (pyLower title)) = false →
        PRODUCT_KEYWORDS.any
        (fun k => containsSub k (pyLower title)) = false →
        classify cat title = cat) := by
  refine ⟨?_, ?_, ?_, ?_, ?_⟩
  · simp only [classify]
    by_cases h1 : INVESTMENT_KEYWORDS.any
        (fun k => containsSub k (pyLower title)) = true
    · rw [if_pos h1]
      decide
    · rw [if_neg h1]
      by_cases h2 : PRODUCT_KEYWORDS.any
          (fun k => containsSub k (pyLower title)) = true
      · rw [if_pos h2]
        by_cases h3 : cat = str "product" ∨ cat = str "bigModel"
        · rw [if_pos h3]
          exact h
        · rw [if_neg h3]
          decide
      · rw [if_neg h2]
        exact h
  · intro h1
    simp only [classify]
    rw [if_pos h1]
  · intro h1 h2 h3
    simp only [classify]
    rw [if_neg (by simp [h1]), if_pos h2, if_pos h3]
  · intro h1 h2 h3
    simp only [classify]
    rw [if_neg (by simp [h1]), if_pos h2, if_neg h3]
  · intro h1 h2
    simp only [classify]
    rw [if_neg (by simp [h1]), if_neg (by simp [h2])]

/-- Claim C4, witness for the amended theorem, exercising all three
classifier branches at concrete inputs: a keyword-free title from the
global category stays in the global bucket (one of the six keys), a
launch-keyword title from a hardware source is reassigned to product, and
the same launch-keyword title from a bigModel source stays in bigModel. -/
theorem c4_amended_witness :
    classify (str "global") (str "economy outlook") ∈ CATEGORY_KEYS
    ∧ classify (str "global") (str "economy outlook") = str "global"
    ∧ classify (str "hardware") (str "launch event") = str "product"
    ∧ classify (str "bigModel") (str "launch event") = str "bigModel" :=
  ⟨(c4_amended (str "global") (str "economy outlook") (by decide)).1,
   (c4_amended (str "global") (str "economy outlook") (by decide)).2.2.2.2
     (by decide) (by decide),
   (c4_amended (str "hardware") (str "launch event") (by decide)).2.2.2.1
     (by decide) (by decide) (by decide),
   (c4_amended (str "bigModel") (str "launch event") (by decide)).2.2.1
     (by decide) (by decide) (by decide)⟩

/-! ### Bucket lemmas -/

theorem dedupByLink_spec :
    ∀ (l : List Entry) (seen : List (List Char)),
      ((dedupByLink l seen).map (·.link)).Nodup
      ∧ ∀ e ∈ dedupByLink l seen, e.link ∉ seen := by
  intro l
  induction l with
  | nil => intro seen; exact ⟨List.nodup_nil, by simp [dedupByLink]⟩
  | cons a rest ih =>
    intro seen
    rw [dedupByLink]
    by_cases hs : a.link ∈ seen
    · rw [if_pos hs]
      exact ih seen
    · rw [if_neg hs]
      rcases ih (a.link :: seen) with ⟨ih1, ih2⟩
      constructor
      · simp only [List.map_cons, List.nodup_cons]
        constructor
        · intro hmem
          rcases List.mem_map.mp hmem with ⟨e, he, hle⟩
          have := ih2 e he
          rw [hle] at this
          exact this (List.mem_cons_self _ _)
        · exact ih1
      · intro e he
        rcases List.mem_cons.mp he with he | he
        · subst he; exact hs
        · exact fun hm => ih2 e he (List.mem_cons_of_mem _ hm)

theorem dedupByLink_subset :
    ∀ (l : List Entry) (seen : List (List Char)) (e : Entry),
      e ∈ dedupByLink l seen → e ∈ l := by
  intro l
  induction l with
  | nil => intro seen e h; simp [dedupByLink] at h
  | cons a rest ih =>
    intro seen e h
    rw [dedupByLink] at h
    by_cases hs : a.link ∈ seen
    · rw [if_pos hs] at h
      exact List.mem_cons_of_mem _ (ih seen e h)
    · rw [if_neg hs] at h
      rcases List.mem_cons.mp h with h | h
      · simp [h]
      · exact List.mem_cons_of_mem _ (ih _ e h)

theorem outputBucketArticles_nodup (input : List (List Char × Entry))
    (cat : List Char) :
    ((outputBucketArticles input cat).map (·.link)).Nodup := by
  have h := (dedupByLink_spec (categoryCandidates input cat) []).1
  have hsub : List.Sublist ((outputBucketArticles input cat).map (·.link))
      ((dedupByLink (categoryCandidates input cat) []).map (·.link)) := by
    unfold outputBucketArticles
    rw [List.map_take]
    exact List.take_sublist _ _
  exact List.Nodup.sublist hsub h

theorem outputBucketArticles_subset (input : List (List Char × Entry))
    (cat : List Char) (e : Entry) (h : e ∈ outputBucketArticles input cat) :
    e ∈ categoryCandidates input cat := by
  unfold outputBucketArticles at h
  exact dedupByLink_subset _ _ e (List.take_subset _ _ h)

theorem categoryCandidates_subset (input : List (List Char × Entry))
    (cat : List Char) (e : Entry) (h : e ∈ categoryCandidates input cat) :
    e ∈ allArticles input := by
  unfold categoryCandidates at h
  rcases List.mem_map.mp h with ⟨p, hp, he⟩
  exact List.mem_map.mpr ⟨p, List.mem_of_mem_filter hp, he⟩

/-! ### Claims C5 and C10: bucket invariants -/

/-- Claim C5, counterexample. The claim says article identity is the URL
and every accepted article appears in exactly one bucket. Deduplication is
only per bucket: the same URL fetched under two source categories (the
configured SOURCES feed several categories from the same feeds, e.g.
OpenAI Blog under bigModel and OpenAI Product under product) is kept once
in each of two different buckets. Two entries sharing the link
`http://x/a`, one processed under bigModel and one under product with a
keyword-free title, appear in both buckets of the output. -/
theorem c5_counterexample :
    (str "http://x/a") ∈ (outputBucketArticles
        [(str "bigModel",
          ⟨str "hello", str "http://x/a", [], [], str "S1"⟩),
         (str "product",
          ⟨str "hello", str "http://x/a", [], [], str "S2"⟩)]
        (str "bigModel")).map (·.link)
    ∧ (str "http://x/a") ∈ (outputBucketArticles
        [(str "bigModel",
          ⟨str "hello", str "http://x/a", [], [], str "S1"⟩),
         (str "product",
          ⟨str "hello", str "http://x/a", [], [], str "S2"⟩)]
        (str "product")).map (·.link) := by
  refine ⟨by decide, by decide⟩

/-- Claim C5, amended: within each bucket no two entries share a link (the
per-bucket seen-set deduplication of lines 310-316), and every entry of a
bucket comes from the candidate list of exactly that bucket key, the one
classify assigned it. The same URL processed under two source categories
can still appear in two different buckets, and a unique article beyond the
first eight of its bucket appears in none. -/
theorem c5_amended (input : List (List Char × Entry)) (cat : List Char) :
    ((outputBucketArticles input cat).map (·.link)).Nodup
    ∧ ((outputBucketArticles input cat).all
        (fun e => decide (e ∈ categoryCandidates input cat))) = true := by
  constructor
  · exact outputBucketArticles_nodup input cat
  · rw [List.all_eq_true]
    intro e he
    rw [decide_eq_true_eq]
    exact outputBucketArticles_subset input cat e he

/-- Claim C10, confirmed: in every output of build_content_database every
bucket holds at most 8 articles (the first 8 unique per link in processing
order, by lines 318-323) and the inner summaries list holds at most 3
items (lines 339-355 stop at three and line 355 caps the projection). -/
theorem c10_caps (input : List (List Char × Entry)) :
    ((build_content_database input).categories.all
        (fun kb => decide (kb.2.articles.length ≤ 8))) = true
    ∧ ((build_content_database input).summaries.all
        (fun s => decide (s.length ≤ 3))) = true := by
  constructor
  · rw [List.all_eq_true]
    intro kb hkb
    rw [decide_eq_true_eq]
    simp only [build_content_database] at hkb
    rcases List.mem_map.mp hkb with ⟨m, _, he⟩
    subst he
    simp only [outputBucketArticles]
    exact List.length_take_le _ _
  · rw [List.all_eq_true]
    intro s hs
    rw [decide_eq_true_eq]
    simp only [build_content_database] at hs
    rcases List.mem_cons.mp hs with hs | hs
    · subst hs
      simp only [summariesInner, selectSummaries, List.length_map]
      exact List.length_take_le _ _
    · simp at hs

/-! ### Summary selector lemmas -/

theorem lookupG_none_iff (gs : List (List Char × List Entry)) (k : List Char) :
    lookupG gs k = none ↔ k ∉ gs.map (·.1) := by
  induction gs with
  | nil => simp [lookupG]
  | cons g rest ih =>
    rw [lookupG]
    by_cases hk : g.1 = k
    · simp [hk]
    · rw [if_neg hk]
      simp only [List.map_cons, List.mem_cons]
      rw [ih]
      constructor
      · intro h hm
        rcases hm with hm | hm
        · exact hk hm.symm
        · exact h hm
      · intro h hm
        exact h (Or.inr hm)

theorem lookupG_some_mem (gs : List (List Char × List Entry)) (k : List Char)
    (v : List Entry) (h : lookupG gs k = some v) : (k, v) ∈ gs := by
  induction gs with
  | nil => simp [lookupG] at h
  | cons g rest ih =>
    rw [lookupG] at h
    by_cases hk : g.1 = k
    · rw [if_pos hk] at h
      injection h with h2
      have : g = (k, v) := by
        rcases g with ⟨g1, g2⟩
        simp only at hk h2
        rw [hk, h2]
      rw [← this]
      exact List.mem_cons_self _ _
    · rw [if_neg hk] at h
      exact List.mem_cons_of_mem _ (ih h)

theorem lookupG_of_mem_nodup (gs : List (List Char × List Entry))
    (hk : (gs.map (·.1)).Nodup) (k : List Char) (v : List Entry)
    (hm : (k, v) ∈ gs) : lookupG gs k = some v := by
  induction gs with
  | nil => simp at hm
  | cons g rest ih =>
    simp only [List.map_cons, List.nodup_cons] at hk
    rw [lookupG]
    rcases List.mem_cons.mp hm with hm | hm
    · rw [← hm]
      simp
    · by_cases hg : g.1 = k
      · exfalso
        apply hk.1
        rw [hg]
        exact List.mem_map.mpr ⟨(k, v), hm, rfl⟩
      · rw [if_neg hg]
        exact ih hk.2 hm

/-- Well-formedness of the source groups: distinct keys, and every entry
of a group carries that group's source name. -/
def GroupsWF (gs : List (List Char × List Entry)) : Prop :=
  (gs.map (·.1)).Nodup ∧ ∀ g ∈ gs, ∀ e ∈ g.2, e.source = g.1

theorem addToGroups_wf (gs : List (List Char × List Entry)) (a : Entry)
    (h : GroupsWF gs) : GroupsWF (addToGroups gs a) := by
  rcases h with ⟨h1, h2⟩
  unfold addToGroups
  cases hl : lookupG gs a.source with
  | some v =>
    constructor
    · have hmap : (gs.map fun g =>
          if g.1 = a.source then (g.1, g.2 ++ [a]) else g).map (·.1)
          = gs.map (·.1) := by
        rw [List.map_map]
        apply List.map_congr_left
        intro g _
        by_cases hg : g.1 = a.source
        · simp [hg]
        · simp [hg]
      rw [hmap]
      exact h1
    · intro g hg e he
      rcases List.mem_map.mp hg with ⟨g0, hg0, hge⟩
      by_cases hc : g0.1 = a.source
      · rw [if_pos hc] at hge
        subst hge
        simp only at he ⊢
        rcases List.mem_append.mp he with he | he
        · exact h2 g0 hg0 e he
        · simp at he
          subst he
          exact hc.symm
      · rw [if_neg hc] at hge
        subst hge
        exact h2 g0 hg0 e he
  | none =>
    constructor
    · rw [List.map_append]
      refine List.Nodup.append h1 (by simp) ?_
      intro x hx hy
      simp at hy
      subst hy
      exact (lookupG_none_iff gs a.source).mp hl hx
    · intro g hg e he
      rcases List.mem_append.mp hg with hg | hg
      · exact h2 g hg e he
      · simp at hg
        subst hg
        simp at he
        subst he
        rfl

theorem groupBySource_wf_aux :
    ∀ (l : List Entry) (gs : List (List Char × List Entry)),
      GroupsWF gs → GroupsWF (l.foldl addToGroups gs) := by
  intro l
  induction l with
  | nil => intro gs h; exact h
  | cons a rest ih =>
    intro gs h
    exact ih _ (addToGroups_wf gs a h)

theorem groupBySource_wf (l : List Entry) : GroupsWF (groupBySource l) :=
  groupBySource_wf_aux l [] ⟨List.nodup_nil, by simp⟩

theorem addToGroups_prov (gs : List (List Char × List Entry)) (a : Entry)
    (P : Entry → Prop) (h : ∀ g ∈ gs, ∀ e ∈ g.2, P e) (ha : P a) :
    ∀ g ∈ addToGroups gs a, ∀ e ∈ g.2, P e := by
  unfold addToGroups
  cases hl : lookupG gs a.source with
  | some v =>
    intro g hg e he
    rcases List.mem_map.mp hg with ⟨g0, hg0, hge⟩
    by_cases hc : g0.1 = a.source
    · rw [if_pos hc] at hge
      subst hge
      simp only at he
      rcases List.mem_append.mp he with he | he
      · exact h g0 hg0 e he
      · simp at he
        subst he
        exact ha
    · rw [if_neg hc] at hge
      subst hge
      exact h g0 hg0 e he
  | none =>
    intro g hg e he
    rcases List.mem_append.mp hg with hg | hg
    · exact h g hg e he
    · simp at hg
      subst hg
      simp at he
      subst he
      exact ha

theorem groupBySource_prov_aux (P : Entry → Prop) :
    ∀ (l : List Entry) (gs : List (List Char × List Entry)),
      (∀ g ∈ gs, ∀ e ∈ g.2, P e) → (∀ e ∈ l, P e) →
      ∀ g ∈ l.foldl addToGroups gs, ∀ e ∈ g.2, P e := by
  intro l
  induction l with
  | nil => intro gs hgs _; exact hgs
  | cons a rest ih =>
    intro gs hgs hl
    refine ih _ (addToGroups_prov gs a P hgs (hl a (List.mem_cons_self _ _))) ?_
    intro e he
    exact hl e (List.mem_cons_of_mem _ he)

theorem groupBySource_prov (l : List Entry) :
    ∀ g ∈ groupBySource l, ∀ e ∈ g.2, e ∈ l :=
  groupBySource_prov_aux (· ∈ l) l [] (by simp) (fun e he => he)

/-- An entry that is the head of the group of its own source name. -/
def HeadOfOwn (gs : List (List Char × List Entry)) (e : Entry) : Prop :=
  ∃ v, lookupG gs e.source = some (e :: v)

theorem priorityLoop_inv (gs : List (List Char × List Entry))
    (hwf : GroupsWF gs) :
    ∀ (prios : List (List Char)) (acc : List Entry), prios.Nodup →
      (∀ e ∈ acc, HeadOfOwn gs e) →
      ((acc.map (·.source)).Nodup) →
      (∀ e ∈ acc, e.source ∉ prios) →
      (∀ e ∈ priorityLoop gs prios acc, HeadOfOwn gs e)
      ∧ ((priorityLoop gs prios acc).map (·.source)).Nodup := by
  intro prios
  induction prios with
  | nil =>
    intro acc _ h1 h2 _
    exact ⟨h1, h2⟩
  | cons src rest ih =>
    intro acc hnd h1 h2 h3
    have hnd2 := hnd.of_cons
    rw [priorityLoop]
    cases hl : lookupG gs src with
    | none =>
      simp only
      split
      · exact ⟨h1, h2⟩
      · exact ih acc hnd2 h1 h2
          (fun e he hm => h3 e he (List.mem_cons_of_mem _ hm))
    | some arts =>
      cases arts with
      | nil =>
        simp only
        split
        · exact ⟨h1, h2⟩
        · exact ih acc hnd2 h1 h2
            (fun e he hm => h3 e he (List.mem_cons_of_mem _ hm))
      | cons e0 tl =>
        have hsrc : e0.source = src :=
          hwf.2 _ (lookupG_some_mem gs src _ hl) e0 (List.mem_cons_self _ _)
        have hnew1 : ∀ e ∈ acc ++ [e0], HeadOfOwn gs e := by
          intro e he
          rcases List.mem_append.mp he with he | he
          · exact h1 e he
          · simp at he
            subst he
            exact ⟨tl, by rw [hsrc]; exact hl⟩
        have hnew2 : ((acc ++ [e0]).map (·.source)).Nodup := by
          rw [List.map_append]
          refine List.Nodup.append h2 (by simp) ?_
          intro x hx hy
          simp at hy
          subst hy
          rcases List.mem_map.mp hx with ⟨e, he, hse⟩
          apply h3 e he
          rw [hse, hsrc]
          exact List.mem_cons_self _ _
        have hnew3 : ∀ e ∈ acc ++ [e0], e.source ∉ rest := by
          intro e he
          rcases List.mem_append.mp he with he | he
          · exact fun hm => h3 e he (List.mem_cons_of_mem _ hm)
          · simp at he
            subst he
            rw [hsrc]
            simp only [List.nodup_cons] at hnd
            exact hnd.1
        simp only
        split
        · exact ⟨hnew1, hnew2⟩
        · exact ih (acc ++ [e0]) hnd2 hnew1 hnew2 hnew3

theorem fillLoop_inv (gs : List (List Char × List Entry))
    (hwf : GroupsWF gs) :
    ∀ (gsuf : List (List Char × List Entry)) (acc : List Entry),
      (∀ g ∈ gsuf, g ∈ gs) →
      (∀ e ∈ acc, HeadOfOwn gs e) →
      ((acc.map (·.source)).Nodup) →
      (∀ e ∈ fillLoop gsuf acc, HeadOfOwn gs e)
      ∧ ((fillLoop gsuf acc).map (·.source)).Nodup := by
  intro gsuf
  induction gsuf with
  | nil =>
    intro acc _ h1 h2
    exact ⟨h1, h2⟩
  | cons g rest ih =>
    intro acc hsub h1 h2
    have hsub2 : ∀ g2 ∈ rest, g2 ∈ gs :=
      fun g2 hg2 => hsub g2 (List.mem_cons_of_mem _ hg2)
    rw [fillLoop]
    cases hg2 : g.2 with
    | nil =>
      simp only
      split
      · exact ⟨h1, h2⟩
      · exact ih acc hsub2 h1 h2
    | cons e0 tl =>
      have hgmem : g ∈ gs := hsub g (List.mem_cons_self _ _)
      have hsrc : e0.source = g.1 := by
        refine hwf.2 g hgmem e0 ?_
        rw [hg2]
        exact List.mem_cons_self _ _
      have hlk : lookupG gs g.1 = some (e0 :: tl) := by
        have hpair : (g.1, g.2) ∈ gs := by
          rcases g with ⟨g1, gv⟩
          exact hgmem
        rw [hg2] at hpair
        exact lookupG_of_mem_nodup gs hwf.1 g.1 (e0 :: tl) hpair
      by_cases hin : e0 ∈ acc
      · simp only [hin, if_true]
        split
        · exact ⟨h1, h2⟩
        · exact ih acc hsub2 h1 h2
      · simp only [hin, if_false]
        have hnew1 : ∀ e ∈ acc ++ [e0], HeadOfOwn gs e := by
          intro e he
          rcases List.mem_append.mp he with he | he
          · exact h1 e he
          · simp at he
            subst he
            exact ⟨tl, by rw [hsrc]; exact hlk⟩
        have hnew2 : ((acc ++ [e0]).map (·.source)).Nodup := by
          rw [List.map_append]
          refine List.Nodup.append h2 (by simp) ?_
          intro x hx hy
          simp at hy
          subst hy
          rcases List.mem_map.mp hx with ⟨e, he, hse⟩
          rcases h1 e he with ⟨v, hv⟩
          rw [hse, hsrc, hlk] at hv
          injection hv with hv2
          injection hv2 with hv3 _
          exact hin (hv3 ▸ he)
        split
        · exact ⟨hnew1, hnew2⟩
        · exact ih (acc ++ [e0]) hsub2 hnew1 hnew2

theorem nodup_subset_length :
    ∀ (l m : List (List Char)), l.Nodup → (∀ x ∈ l, x ∈ m) →
      l.length ≤ m.length := by
  intro l
  induction l with
  | nil => intro m _ _; simp
  | cons x xs ih =>
    intro m hnd hsub
    simp only [List.nodup_cons] at hnd
    have hx : x ∈ m := hsub x (List.mem_cons_self _ _)
    have hxs : ∀ y ∈ xs, y ∈ m.erase x := by
      intro y hy
      have hyx : y ≠ x := fun he => hnd.1 (he ▸ hy)
      rw [List.mem_erase_of_ne hyx]
      exact hsub y (List.mem_cons_of_mem _ hy)
    have hlen := ih (m.erase x) hnd.2 hxs
    have hml : (m.erase x).length = m.length - 1 :=
      List.length_erase_of_mem hx
    have hpos : 0 < m.length := List.length_pos.mpr (List.ne_nil_of_mem hx)
    simp only [List.length_cons]
    omega

theorem selStage_inv (gs : List (List Char × List Entry))
    (hwf : GroupsWF gs) :
    (∀ e ∈ selStage gs, HeadOfOwn gs e)
    ∧ ((selStage gs).map (·.source)).Nodup := by
  have hs1 := priorityLoop_inv gs hwf PRIORITY_SOURCES []
    (by decide) (by simp) (by simp) (by simp)
  simp only [selStage]
  by_cases h : (priorityLoop gs PRIORITY_SOURCES []).length < 3
  · rw [if_pos h]
    exact fillLoop_inv gs hwf gs _ (fun g hg => hg) hs1.1 hs1.2
  · rw [if_neg h]
    exact hs1

theorem selectSummaries_spec (arts : List Entry) :
    ((selectSummaries arts).map (·.source)).Nodup
    ∧ (selectSummaries arts).length ≤ 3
    ∧ (∀ e ∈ selectSummaries arts, e ∈ arts)
    ∧ (selectSummaries arts).length ≤ (groupBySource arts).length := by
  have hwf := groupBySource_wf arts
  have hst := selStage_inv (groupBySource arts) hwf
  have hmem : ∀ e, HeadOfOwn (groupBySource arts) e → e ∈ arts := by
    intro e he
    rcases he with ⟨v, hv⟩
    have hm := lookupG_some_mem _ _ _ hv
    exact groupBySource_prov arts _ hm e (List.mem_cons_self _ _)
  have hkey : ∀ e, HeadOfOwn (groupBySource arts) e →
      e.source ∈ (groupBySource arts).map (·.1) := by
    intro e he
    rcases he with ⟨v, hv⟩
    by_contra hk
    rw [← lookupG_none_iff] at hk
    rw [hk] at hv
    exact absurd hv (by simp)
  have htake : ∀ e ∈ selectSummaries arts, e ∈ selStage (groupBySource arts) := by
    intro e he
    exact List.take_subset _ _ he
  refine ⟨?_, ?_, ?_, ?_⟩
  · have hsub : List.Sublist ((selectSummaries arts).map (·.source))
        ((selStage (groupBySource arts)).map (·.source)) := by
      simp only [selectSummaries]
      rw [List.map_take]
      exact List.take_sublist _ _
    exact List.Nodup.sublist hsub hst.2
  · simp only [selectSummaries]
    exact List.length_take_le _ _
  · intro e he
    exact hmem e (hst.1 e (htake e he))
  · have hnd : ((selectSummaries arts).map (·.source)).Nodup := by
      have hsub : List.Sublist ((selectSummaries arts).map (·.source))
          ((selStage (groupBySource arts)).map (·.source)) := by
        simp only [selectSummaries]
        rw [List.map_take]
        exact List.take_sublist _ _
      exact List.Nodup.sublist hsub hst.2
    have hsub2 : ∀ x ∈ (selectSummaries arts).map (·.source),
        x ∈ (groupBySource arts).map (·.1) := by
      intro x hx
      rcases List.mem_map.mp hx with ⟨e, he, hse⟩
      rw [← hse]
      exact hkey e (hst.1 e (htake e he))
    have := nodup_subset_length _ _ hnd hsub2
    rw [List.length_map, List.length_map] at this
    exact this

/-! ### Claim C9: the Summary Selector -/

/-- Claim C9, confirmed: the selection takes at most one article per
source name - the priority pass walks the distinct priority names, the
fill pass only appends a group head not already selected, and a selected
head pins down its whole source group - so no two summary items share a
source, at most 3 items are produced, and the item count never exceeds
the number of distinct sources among the candidates (the group count), so
fewer distinct sources simply yield fewer items, never duplicates. -/
theorem c9_summary_diversity (input : List (List Char × Entry)) :
    ((summariesInner input).map (·.source)).Nodup
    ∧ (summariesInner input).length ≤ 3
    ∧ (summariesInner input).length
        ≤ (groupBySource (allArticles input)).length := by
  have hspec := selectSummaries_spec (allArticles input)
  have hmap : (summariesInner input).map (·.source)
      = (selectSummaries (allArticles input)).map (·.source) := by
    simp only [summariesInner, List.map_map]
    rfl
  refine ⟨?_, ?_, ?_⟩
  · rw [hmap]
    exact hspec.1
  · simp only [summariesInner, List.length_map]
    exact hspec.2.1
  · simp only [summariesInner, List.length_map]
    exact hspec.2.2.2

/-! ### Claim C3: the Relevance Filter -/

theorem filtered_no_reject (cfg : FilterConfig)
    (input : List (List Char × Entry)) (e : Entry)
    (h : e ∈ allArticles (filteredInput cfg input)) :
    relevanceReject cfg e = false := by
  simp only [allArticles, filteredInput] at h
  rcases List.mem_map.mp h with ⟨p, hp, he⟩
  have := List.of_mem_filter hp
  simp only [Bool.not_eq_true'] at this
  rw [← he]
  exact this

/-- Claim C3, confirmed (spec-modelled: the Relevance Filter of spec
section 4.2 does not exist in src/scripts/update_news.py; it is modelled
from the spec as relevanceReject and composed with the embedded pipeline
as filteredInput). When an article matches the blocklist, contains a
disallowed term, or lacks every domain-indicator term, it is rejected:
it appears in no bucket of the resulting ContentDatabase, and every
summary item of that run is the projection of some article the filter
accepted. -/
theorem c3_filter_rejects (cfg : FilterConfig)
    (input : List (List Char × Entry)) (a : Entry)
    (h : relevanceReject cfg a = true) :
    (∀ cat, a ∉ outputBucketArticles (filteredInput cfg input) cat)
    ∧ (∀ item ∈ summariesInner (filteredInput cfg input),
        ∃ e, e ∈ allArticles (filteredInput cfg input)
          ∧ relevanceReject cfg e = false ∧ item = projectSummary e) := by
  constructor
  · intro cat hmem
    have h1 := outputBucketArticles_subset _ cat a hmem
    have h2 := categoryCandidates_subset _ cat a h1
    have h3 := filtered_no_reject cfg input a h2
    rw [h3] at h
    exact absurd h (by simp)
  · intro item hitem
    simp only [summariesInner] at hitem
    rcases List.mem_map.mp hitem with ⟨e, he, hpe⟩
    have hsel := (selectSummaries_spec (allArticles (filteredInput cfg input))).2.2.1
    have hin := hsel e he
    exact ⟨e, hin, filtered_no_reject cfg input e hin, hpe.symm⟩

/-- Claim C3, witness: a concrete article from a blocklisted domain is
rejected and lands in no bucket. -/
theorem c3_filter_rejects_witness :
    relevanceReject
        ⟨[str "bad.com"], [], [str "ai"]⟩
        ⟨str "AI news", str "http://bad.com/x", [], str "body", str "S"⟩ = true
    ∧ (⟨str "AI news", str "http://bad.com/x", [], str "body", str "S"⟩ : Entry)
        ∉ outputBucketArticles
          (filteredInput ⟨[str "bad.com"], [], [str "ai"]⟩
            [(str "bigModel",
              ⟨str "AI news", str "http://bad.com/x", [], str "body", str "S"⟩)])
          (str "bigModel") :=
  ⟨by decide,
   (c3_filter_rejects ⟨[str "bad.com"], [], [str "ai"]⟩
     [(str "bigModel",
       ⟨str "AI news", str "http://bad.com/x", [], str "body", str "S"⟩)]
     ⟨str "AI news", str "http://bad.com/x", [], str "body", str "S"⟩
     (by decide)).1 (str "bigModel")⟩
